import Mathlib

/-!
Verification of the `mysh` shell (src/P3/mysh.c).

The development shallowly embeds the two functions defined in `mysh.c`:

* `read_input` (lines 124-261): the incremental, chunked line reader.  Raw
  `read(2)` results are modelled as a list of `Option (List Byte)` values
  consumed in order: `some bytes` is a successful read returning `bytes`
  (`bytes_read > 0` in C corresponds to a nonempty list, `bytes_read == 0`,
  i.e. end of file, to `some []`), and `none` is a failing read
  (`bytes_read < 0`).  Running past the end of the list behaves like a read
  that returns 0, matching POSIX `read` at end of file.  The `static`
  variables `leftover`/`leftover_size` and `eof_reached` become the explicit
  state `RState`; `last_file` is carried by `CState` for the full function
  `read_input_c`.  Dynamic allocation always succeeds in the model (the
  `realloc` failure paths are unreachable under that assumption).  The
  `printf("Bytes read: %ld\n", bytes_read)` executed after every raw read is
  modelled by the `diags` output, one `Int` entry per raw read performed.

* `main` (lines 25-116): argument validation, batch-file opening,
  interactive-mode detection and the read/tokenize loop.  `token_input` is
  declared and called by `main` but has no definition in the repository; it
  is modelled from the specification (§4.2).
-/

namespace Mysh

/-- A byte, as an unsigned char value. -/
abbrev Byte := Nat

/-- The newline byte `'\n'`. -/
def NL : Byte := 10

/-- `READ_CHUNK_SIZE` from mysh.c line 9. -/
def READ_CHUNK_SIZE : Nat := 128

/-- The outcome of one raw `read(2)` call: `none` is an error
(`bytes_read < 0`), `some []` is end of file (`bytes_read == 0`), and
`some bytes` with `bytes` nonempty is a successful data read. -/
abbrev RawResult := Option (List Byte)

/-- The sequence of raw read results a stream will deliver, consumed in
order.  An exhausted list behaves like a `read` that returns 0 forever. -/
abbrev RawStream := List RawResult

/-- The value `bytes_read` that line 194 of mysh.c prints for a raw read. -/
def rawVal : RawResult → Int
  | none => -1
  | some d => d.length

/-- The reader state held in the `static` locals of `read_input`
(mysh.c lines 125-127): the residual bytes saved past the last returned
newline and the end-of-file flag. -/
structure RState where
  leftover : List Byte
  eof_reached : Bool
deriving Repr, DecidableEq

/-- The state of a fresh reader: no residual bytes, end of file not seen. -/
def initState : RState := { leftover := [], eof_reached := false }

/-- Split a byte list at its first newline: `some (p, r)` where `p` ends
with the newline and `r` is everything after it, or `none` when the list
has no newline.  This captures the byte-by-byte newline scan of the two
copy loops in `read_input` (mysh.c lines 153-173 and 207-225). -/
def splitAtNL : List Byte → Option (List Byte × List Byte)
  | [] => none
  | b :: rest =>
    if b = NL then some ([b], rest)
    else
      match splitAtNL rest with
      | none => none
      | some (p, r) => some (b :: p, r)

/-- Strip a single trailing newline from the assembled buffer, as
mysh.c lines 255-257 do before returning. -/
def finishLine : List Byte → List Byte
  | [] => []
  | [b] => if b = NL then [] else [b]
  | b :: c :: rest => b :: finishLine (c :: rest)

/-- Everything one call to `read_input` produces: the returned line
(`none` models a NULL return), the updated static state, the raw results
not yet consumed, and the "Bytes read: n" diagnostics printed. -/
structure ReadCall where
  line : Option (List Byte)
  state : RState
  rest : RawStream
  diags : List Int
deriving Repr, DecidableEq

/-- The `while (!found_newline && !eof_reached)` read loop of `read_input`
(mysh.c lines 191-232) followed by the end-of-file check at line 235 and
the `finish_line` epilogue.  `buf` is the result buffer accumulated so
far.  Each chunk is scanned for a newline; on a newline the bytes past it
become the new residual (lines 227-231; when the newline is the last byte
of the chunk the residual is left as it was, which at this point is
empty), on an error the buffer is discarded and NULL returned
(lines 196-199), and on a zero-byte read `eof_reached` is set
(lines 200-203). -/
def readLoop : List Byte → RState → RawStream → ReadCall
  | buf, st, s =>
    if st.eof_reached then
      { line := if buf = [] then none else some (finishLine buf),
        state := st, rest := s, diags := [] }
    else
      match s with
      | [] =>
        { line := if buf = [] then none else some (finishLine buf),
          state := { st with eof_reached := true }, rest := [], diags := [0] }
      | none :: rest =>
        { line := none, state := st, rest := rest, diags := [-1] }
      | some [] :: rest =>
        { line := if buf = [] then none else some (finishLine buf),
          state := { st with eof_reached := true }, rest := rest, diags := [0] }
      | some (b :: bs) :: rest =>
        match splitAtNL (b :: bs) with
        | some (p, r) =>
          { line := some (finishLine (buf ++ p)),
            state := if r = [] then st else { st with leftover := r },
            rest := rest, diags := [((b :: bs).length : Int)] }
        | none =>
          let k := readLoop (buf ++ (b :: bs)) st rest
          { k with diags := ((b :: bs).length : Int) :: k.diags }

/-- One call of `read_input` (mysh.c lines 124-261) on an already bound
stream: the early return at lines 146-148 when end of file was reached
with no residual, the residual-processing loop at lines 151-188 (either a
newline is found in the residual and the call returns without reading, or
the whole residual seeds the result buffer), then the read loop. -/
def read_input (st : RState) (s : RawStream) : ReadCall :=
  if st.eof_reached = true ∧ st.leftover = [] then
    { line := none, state := st, rest := s, diags := [] }
  else
    match splitAtNL st.leftover with
    | some (p, r) =>
      { line := some (finishLine p), state := { st with leftover := r },
        rest := s, diags := [] }
    | none => readLoop st.leftover { st with leftover := [] } s

/-- The full static state of `read_input`, including `last_file`
(mysh.c line 128); streams are identified by a number. -/
structure CState where
  leftover : List Byte
  eof_reached : Bool
  last_file : Option Nat
deriving Repr, DecidableEq

/-- `read_input` including the stream-change reset at mysh.c
lines 131-135: when `source` differs from `last_file` the residual and
the end-of-file flag are cleared before anything else happens. -/
def read_input_c (source : Nat) (st : CState) (s : RawStream) :
    Option (List Byte) × CState × RawStream × List Int :=
  let st1 : CState :=
    if st.last_file = some source then st
    else { leftover := [], eof_reached := false, last_file := some source }
  let k := read_input { leftover := st1.leftover, eof_reached := st1.eof_reached } s
  (k.line, { leftover := k.state.leftover, eof_reached := k.state.eof_reached,
             last_file := some source }, k.rest, k.diags)

/-- Call `read_input` repeatedly (as the loop in `main` does) until it
returns NULL, collecting the returned lines; `fuel` bounds the number of
calls.  Returns the lines together with the state and unconsumed raw
results after the terminating NULL call. -/
def drainFull : Nat → RState → RawStream → List (List Byte) × RState × RawStream
  | 0, st, s => ([], st, s)
  | fuel + 1, st, s =>
    let k := read_input st s
    match k.line with
    | none => ([], k.state, k.rest)
    | some l =>
      let t := drainFull fuel k.state k.rest
      (l :: t.1, t.2)

/-- Helper for `linesOf`: `acc` holds the bytes of the current line in
reverse. -/
def linesOfAux : List Byte → List Byte → List (List Byte)
  | [], acc => if acc = [] then [] else [acc.reverse]
  | b :: rest, acc =>
    if b = NL then acc.reverse :: linesOfAux rest []
    else linesOfAux rest (b :: acc)

/-- The logical lines of a byte stream: maximal newline-free segments,
each newline ends a line, and a nonempty segment after the last newline
is a final line of its own. -/
def linesOf (l : List Byte) : List (List Byte) := linesOfAux l []

/-- The bytes a raw stream carries (errors contribute nothing). -/
def sjoin (s : RawStream) : List Byte := (s.map fun c => c.getD []).flatten

/-- A raw stream consisting only of successful, nonempty data reads. -/
def goodStream (s : RawStream) : Prop := ∀ c ∈ s, c ≠ none ∧ c ≠ some []

/-- A raw result fits the 128-byte `chunk` array of mysh.c line 192. -/
def chunkOkB (c : RawResult) : Bool := (c.getD []).length ≤ READ_CHUNK_SIZE

/-- Whitespace bytes, as `isspace` classifies them. -/
def isWhite (b : Byte) : Bool :=
  b = 32 || b = 9 || b = 10 || b = 11 || b = 12 || b = 13

/-- The three shell operator bytes `<`, `>`, `|`. -/
def isOp (b : Byte) : Bool := b = 60 || b = 62 || b = 124

/-- Modelled from the spec: helper for `token_input`, which mysh.c
declares (line 13) and calls (line 74) but never defines.  Splits on
whitespace and makes each `<`, `>`, `|` a standalone token (§4.2); `acc`
holds the bytes of the current word in reverse. -/
def tokenizeAux : List Byte → List Byte → List (List Byte)
  | [], acc => if acc = [] then [] else [acc.reverse]
  | b :: rest, acc =>
    if isWhite b then
      if acc = [] then tokenizeAux rest []
      else acc.reverse :: tokenizeAux rest []
    else if isOp b then
      if acc = [] then [b] :: tokenizeAux rest []
      else acc.reverse :: [b] :: tokenizeAux rest []
    else tokenizeAux rest (b :: acc)

/-- Modelled from the spec: `token_input` (declared at mysh.c line 13,
called at line 74, not defined in the repository).  Per §4.2: whitespace
separates WORD tokens and each occurrence of `<`, `>` or `|` is a
standalone token even without surrounding whitespace. -/
def token_input (line : List Byte) : List (List Byte) := tokenizeAux line []

/-- The bytes of the string "exit". -/
def exitB : List Byte := [101, 120, 105, 116]

/-- The bytes of the string "die". -/
def dieB : List Byte := [100, 105, 101]

/-- A program invocation: the argument count (including the program
name), whether standard input is a terminal, whether `fopen(argv[1])`
succeeds, and the raw contents of standard input and of the batch file. -/
structure MainInput where
  argc : Nat
  stdinTty : Bool
  fopenOk : Bool
  stdinStream : RawStream
  batchStream : RawStream
deriving Repr, DecidableEq

/-- The observable outcome of running `main`: the process exit code, the
lines the loop read and tokenized into at least one token, the number of
`read_input` calls made, the number of "mysh> " prompts printed, and
whether the usage message was written to stderr. -/
structure MainOutput where
  exitCode : Nat
  processedLines : List (List Byte)
  readCalls : Nat
  prompts : Nat
  usageError : Bool
deriving Repr, DecidableEq

/-- The main loop of mysh.c (lines 62-103): read a line from standard
input (line 68 passes `stdin` to `read_input`), stop on NULL, tokenize,
skip token-free lines, and stop after a line whose first token is
"exit" or "die" (lines 94-98).  Returns the tokenized lines and the
number of `read_input` calls. -/
def mainLoop : Nat → RState → RawStream → List (List Byte) × Nat
  | 0, _, _ => ([], 0)
  | fuel + 1, st, s =>
    let k := read_input st s
    match k.line with
    | none => ([], 1)
    | some line =>
      let tokens := token_input line
      if tokens.length = 0 then
        let t := mainLoop fuel k.state k.rest
        (t.1, t.2 + 1)
      else if tokens.head? = some exitB ∨ tokens.head? = some dieB then
        ([line], 1)
      else
        let t := mainLoop fuel k.state k.rest
        (line :: t.1, t.2 + 1)

/-- `main` of mysh.c (lines 25-116).  More than one argument: usage
message and `exit(EXIT_FAILURE)` (lines 38-41).  One argument: open the
batch file, exiting with failure if that fails (lines 44-49), and force
non-interactive mode (line 52).  The loop then reads from `stdin`
(line 68) — `input_source` is never passed to `read_input` — and the
function returns 0 (line 115). -/
def main (fuel : Nat) (inp : MainInput) : MainOutput :=
  if 2 < inp.argc then
    { exitCode := 1, processedLines := [], readCalls := 0, prompts := 0,
      usageError := true }
  else if inp.argc = 2 ∧ inp.fopenOk = false then
    { exitCode := 1, processedLines := [], readCalls := 0, prompts := 0,
      usageError := false }
  else
    let interactive := if inp.argc = 2 then false else inp.stdinTty
    let t := mainLoop fuel initState inp.stdinStream
    { exitCode := 0, processedLines := t.1, readCalls := t.2,
      prompts := if interactive then t.2 else 0, usageError := false }

/-- A batch-mode invocation in which standard input and the batch file
hold different lines: stdin carries "aa\n", the file carries "bb\n". -/
def batchInput : MainInput :=
  { argc := 2, stdinTty := true, fopenOk := true,
    stdinStream := [some [97, 97, 10]], batchStream := [some [98, 98, 10]] }

/-- An invocation whose only input line is "die 3". -/
def dieInput : MainInput :=
  { argc := 1, stdinTty := false, fopenOk := true,
    stdinStream := [some [100, 105, 101, 32, 51, 10]], batchStream := [] }

/-- An invocation with two command-line arguments (three argv entries). -/
def usageInput : MainInput :=
  { argc := 3, stdinTty := true, fopenOk := true,
    stdinStream := [some [97, 10]], batchStream := [] }

/-! ## Helper lemmas about `finishLine`, `splitAtNL` and `linesOf` -/

theorem finishLine_no_nl : ∀ {l : List Byte}, NL ∉ l → finishLine l = l := by
  intro l h
  induction l with
  | nil => rfl
  | cons b t ih =>
    cases t with
    | nil =>
      have hb : ¬b = NL := fun hb => h (by simp [hb])
      simp [finishLine, hb]
    | cons c r =>
      have ht : NL ∉ c :: r := fun hm => h (List.mem_cons_of_mem _ hm)
      simp [finishLine, ih ht]

theorem finishLine_snoc : ∀ (l : List Byte), finishLine (l ++ [NL]) = l := by
  intro l
  induction l with
  | nil => simp [finishLine]
  | cons b t ih =>
    cases t with
    | nil => simp [finishLine]
    | cons c r => simpa [finishLine] using ih

theorem splitAtNL_nil : splitAtNL [] = none := rfl

theorem splitAtNL_cons_nl (t : List Byte) : splitAtNL (NL :: t) = some ([NL], t) := by
  simp [splitAtNL]

theorem splitAtNL_cons {b : Byte} (t : List Byte) (hb : ¬b = NL) :
    splitAtNL (b :: t) =
      match splitAtNL t with
      | none => none
      | some (p, r) => some (b :: p, r) := by
  simp [splitAtNL, hb]

theorem splitAtNL_none_not_mem : ∀ {l : List Byte}, splitAtNL l = none → NL ∉ l := by
  intro l
  induction l with
  | nil => intro _; simp
  | cons b t ih =>
    intro h
    by_cases hb : b = NL
    · subst hb; rw [splitAtNL_cons_nl] at h; simp at h
    · rw [splitAtNL_cons t hb] at h
      cases hsp : splitAtNL t with
      | none =>
        simp only [List.mem_cons, not_or]
        exact ⟨fun he => hb he.symm, ih hsp⟩
      | some pr =>
        obtain ⟨p, r⟩ := pr
        rw [hsp] at h
        simp at h

theorem splitAtNL_of_not_mem : ∀ {l : List Byte}, NL ∉ l → splitAtNL l = none := by
  intro l
  induction l with
  | nil => intro _; rfl
  | cons b t ih =>
    intro h
    simp only [List.mem_cons, not_or] at h
    have hb : ¬b = NL := fun hb0 => h.1 hb0.symm
    rw [splitAtNL_cons t hb, ih h.2]

theorem splitAtNL_decomp : ∀ {l p r : List Byte}, splitAtNL l = some (p, r) →
    ∃ q, NL ∉ q ∧ p = q ++ [NL] ∧ l = q ++ NL :: r := by
  intro l
  induction l with
  | nil => intro p r h; simp [splitAtNL] at h
  | cons b t ih =>
    intro p r h
    by_cases hb : b = NL
    · subst hb
      rw [splitAtNL_cons_nl] at h
      simp only [Option.some.injEq, Prod.mk.injEq] at h
      exact ⟨[], by simp, by simp [h.1.symm], by simp [h.2]⟩
    · rw [splitAtNL_cons t hb] at h
      cases hsp : splitAtNL t with
      | none => rw [hsp] at h; simp at h
      | some pr =>
        obtain ⟨p1, r1⟩ := pr
        rw [hsp] at h
        simp only [Option.some.injEq, Prod.mk.injEq] at h
        obtain ⟨q1, hq1, hp1, ht⟩ := ih hsp
        refine ⟨b :: q1, ?_, ?_, ?_⟩
        · simp only [List.mem_cons, not_or]
          exact ⟨fun he => hb he.symm, hq1⟩
        · simp [← h.1, hp1]
        · simp [ht, ← h.2]

theorem splitAtNL_of_decomp : ∀ {q : List Byte} (r : List Byte), NL ∉ q →
    splitAtNL (q ++ NL :: r) = some (q ++ [NL], r) := by
  intro q
  induction q with
  | nil => intro r _; simp [splitAtNL]
  | cons b t ih =>
    intro r h
    simp only [List.mem_cons, not_or] at h
    have hb : ¬b = NL := fun hb0 => h.1 hb0.symm
    rw [List.cons_append, splitAtNL_cons _ hb, ih r h.2]
    simp

theorem nl_decomp_unique : ∀ {q q' r r' : List Byte}, NL ∉ q → NL ∉ q' →
    q ++ NL :: r = q' ++ NL :: r' → q = q' ∧ r = r' := by
  intro q
  induction q with
  | nil =>
    intro q' r r' _ hq' he
    cases q' with
    | nil => simpa using he
    | cons c t =>
      simp only [List.nil_append, List.cons_append, List.cons.injEq] at he
      exact absurd (List.mem_cons.mpr (Or.inl he.1)) hq'
  | cons b t ih =>
    intro q' r r' hq hq' he
    cases q' with
    | nil =>
      simp only [List.cons_append, List.nil_append, List.cons.injEq] at he
      exact absurd (List.mem_cons.mpr (Or.inl he.1.symm)) hq
    | cons c t' =>
      simp only [List.cons_append, List.cons.injEq] at he
      have hqt : NL ∉ t := fun hm => hq (List.mem_cons_of_mem _ hm)
      have hqt' : NL ∉ t' := fun hm => hq' (List.mem_cons_of_mem _ hm)
      obtain ⟨h1, h2⟩ := ih hqt hqt' he.2
      exact ⟨by simp [he.1, h1], h2⟩

theorem prefix_of_first_nl : ∀ {a t q r : List Byte}, NL ∉ a → NL ∉ q →
    a ++ t = q ++ NL :: r → ∃ q2, q = a ++ q2 ∧ t = q2 ++ NL :: r := by
  intro a
  induction a with
  | nil => intro t q r _ _ he; exact ⟨q, by simp, by simpa using he⟩
  | cons b a' ih =>
    intro t q r ha hq he
    cases q with
    | nil =>
      simp only [List.cons_append, List.nil_append, List.cons.injEq] at he
      exact absurd (List.mem_cons.mpr (Or.inl he.1.symm)) ha
    | cons c q' =>
      simp only [List.cons_append, List.cons.injEq] at he
      have hat : NL ∉ a' := fun hm => ha (List.mem_cons_of_mem _ hm)
      have hqt : NL ∉ q' := fun hm => hq (List.mem_cons_of_mem _ hm)
      obtain ⟨q2, hq2, ht⟩ := ih hat hqt he.2
      exact ⟨q2, by simp [← he.1, hq2], ht⟩

theorem first_nl_decomp {l : List Byte} (h : NL ∈ l) :
    ∃ q r, NL ∉ q ∧ l = q ++ NL :: r := by
  cases hsp : splitAtNL l with
  | none => exact absurd h (splitAtNL_none_not_mem hsp)
  | some pr =>
    obtain ⟨p, r⟩ := pr
    obtain ⟨q, hq, _, hl⟩ := splitAtNL_decomp hsp
    exact ⟨q, r, hq, hl⟩

theorem linesOfAux_no_nl : ∀ {l : List Byte} (acc : List Byte), NL ∉ l →
    linesOfAux l acc =
      if acc.reverse ++ l = [] then [] else [acc.reverse ++ l] := by
  intro l
  induction l with
  | nil => intro acc _; simp [linesOfAux]
  | cons b t ih =>
    intro acc h
    simp only [List.mem_cons, not_or] at h
    have hb : ¬b = NL := fun hb => h.1 hb.symm
    simp only [linesOfAux, if_neg hb]
    rw [ih (b :: acc) h.2]
    simp [List.reverse_cons, List.append_assoc]

theorem linesOfAux_eq : ∀ {q : List Byte} (r acc : List Byte), NL ∉ q →
    linesOfAux (q ++ NL :: r) acc = (acc.reverse ++ q) :: linesOfAux r [] := by
  intro q
  induction q with
  | nil => intro r acc _; simp [linesOfAux]
  | cons b t ih =>
    intro r acc h
    simp only [List.mem_cons, not_or] at h
    have hb : ¬b = NL := fun hb => h.1 hb.symm
    simp only [List.cons_append, linesOfAux, if_neg hb, List.append_eq]
    rw [ih r (b :: acc) h.2]
    simp [List.reverse_cons, List.append_assoc]

theorem linesOf_nil : linesOf [] = [] := rfl

theorem linesOf_eq {q : List Byte} (r : List Byte) (h : NL ∉ q) :
    linesOf (q ++ NL :: r) = q :: linesOf r := by
  simpa [linesOf] using linesOfAux_eq r [] h

theorem linesOf_no_nl {l : List Byte} (h : NL ∉ l) (h2 : l ≠ []) :
    linesOf l = [l] := by
  simpa [linesOf, h2] using linesOfAux_no_nl [] h

theorem linesOf_append_snoc : ∀ (n : Nat) (body x : List Byte), body.length ≤ n →
    (body = [] ∨ ∃ b2, body = b2 ++ [NL]) →
    linesOf (body ++ x) = linesOf body ++ linesOf x := by
  intro n
  induction n with
  | zero =>
    intro body x hl _
    have hb : body = [] := List.eq_nil_of_length_eq_zero (Nat.le_zero.mp hl)
    subst hb; simp [linesOf_nil]
  | succ n ih =>
    intro body x hl hterm
    rcases hterm with h | ⟨b2, hb2⟩
    · subst h; simp [linesOf_nil]
    · have hmem : NL ∈ body := by subst hb2; simp
      obtain ⟨q, r, hq, hqr⟩ := first_nl_decomp hmem
      have hx : body ++ x = q ++ NL :: (r ++ x) := by
        rw [hqr]; simp [List.append_assoc]
      rw [hx, linesOf_eq (r ++ x) hq, hqr, linesOf_eq r hq]
      have hrlen : r.length ≤ n := by
        have := congrArg List.length hqr
        simp [List.length_append] at this
        omega
      have hrterm : r = [] ∨ ∃ r2, r = r2 ++ [NL] := by
        rcases List.eq_nil_or_concat r with h | ⟨r3, a, h⟩
        · exact Or.inl h
        · right
          have he : (q ++ NL :: r3) ++ [a] = b2 ++ [NL] := by
            rw [← hb2, hqr, h]; simp [List.append_assoc, List.concat_eq_append]
          have := congrArg List.reverse he
          simp only [List.reverse_append, List.reverse_cons, List.reverse_nil,
            List.nil_append, List.cons_append, List.cons.injEq] at this
          exact ⟨r3, by rw [h, this.1, List.concat_eq_append]⟩
      rw [ih r x hrlen hrterm]
      simp

theorem linesOf_append_terminated {body : List Byte} (x : List Byte)
    (h : body = [] ∨ ∃ b2, body = b2 ++ [NL]) :
    linesOf (body ++ x) = linesOf body ++ linesOf x :=
  linesOf_append_snoc body.length body x le_rfl h

/-! ## Helper lemmas about raw streams -/

theorem sjoin_nil : sjoin [] = [] := rfl

theorem sjoin_cons (c : RawResult) (s : RawStream) :
    sjoin (c :: s) = c.getD [] ++ sjoin s := by
  simp [sjoin]

theorem sjoin_map_some (cs : List (List Byte)) : sjoin (cs.map some) = cs.flatten := by
  induction cs with
  | nil => rfl
  | cons c t ih => simp [sjoin_cons, ih]

theorem goodStream_cons {c : RawResult} {s : RawStream} :
    goodStream (c :: s) ↔ (c ≠ none ∧ c ≠ some []) ∧ goodStream s :=
  List.forall_mem_cons

theorem goodStream_map_some {cs : List (List Byte)} (h : ∀ c ∈ cs, c ≠ []) :
    goodStream (cs.map some) := by
  intro c hc
  simp only [List.mem_map] at hc
  obtain ⟨a, ha, rfl⟩ := hc
  exact ⟨by simp, by simpa using h a ha⟩

/-! ## Characterizations of the read loop -/

theorem readLoop_eof (buf : List Byte) (st : RState) (s : RawStream)
    (h : st.eof_reached = true) :
    readLoop buf st s =
      { line := if buf = [] then none else some (finishLine buf),
        state := st, rest := s, diags := [] } := by
  cases s with
  | nil => simp [readLoop, h]
  | cons c t =>
    cases c with
    | none => simp [readLoop, h]
    | some d =>
      cases d with
      | nil => simp [readLoop, h]
      | cons b bs => simp [readLoop, h]

theorem readLoop_no_nl : ∀ {s : RawStream} (buf : List Byte) (st : RState),
    goodStream s → st.eof_reached = false → NL ∉ buf → NL ∉ sjoin s →
    readLoop buf st s =
      { line := if buf ++ sjoin s = [] then none else some (buf ++ sjoin s),
        state := { st with eof_reached := true }, rest := [],
        diags := s.map rawVal ++ [0] } := by
  intro s
  induction s with
  | nil =>
    intro buf st _ heof hb _
    simp [readLoop, heof, finishLine_no_nl hb, sjoin_nil]
  | cons c t ih =>
    intro buf st hg heof hb hnl
    obtain ⟨⟨h1, h2⟩, hgt⟩ := goodStream_cons.mp hg
    cases c with
    | none => exact absurd rfl h1
    | some d =>
      cases d with
      | nil => exact absurd rfl h2
      | cons b bs =>
        rw [sjoin_cons] at hnl
        simp only [Option.getD_some] at hnl
        have hnl1 : NL ∉ b :: bs := fun hm => hnl (List.mem_append.mpr (Or.inl hm))
        have hnl2 : NL ∉ sjoin t := fun hm => hnl (List.mem_append.mpr (Or.inr hm))
        have hsp : splitAtNL (b :: bs) = none := splitAtNL_of_not_mem hnl1
        have hbb : NL ∉ buf ++ b :: bs := fun hm => by
          rcases List.mem_append.mp hm with h | h
          · exact hb h
          · exact hnl1 h
        simp only [readLoop, heof, Bool.false_eq_true, if_false, hsp]
        rw [ih (buf ++ b :: bs) st hgt heof hbb hnl2]
        simp [sjoin_cons, rawVal, List.append_assoc]

theorem readLoop_found_nl : ∀ {s : RawStream} (buf q r : List Byte),
    goodStream s → NL ∉ buf → NL ∉ q → sjoin s = q ++ NL :: r →
    ∃ lf s2 ds,
      readLoop buf { leftover := [], eof_reached := false } s =
        { line := some (buf ++ q), state := { leftover := lf, eof_reached := false },
          rest := s2, diags := ds } ∧
      goodStream s2 ∧ lf ++ sjoin s2 = r ∧
      (lf = [] ∨ ∃ d, some d ∈ s ∧ lf.length < d.length) := by
  intro s
  induction s with
  | nil =>
    intro buf q r _ _ _ hsj
    rw [sjoin_nil] at hsj
    exact absurd hsj (by simp)
  | cons c t ih =>
    intro buf q r hg hb hq hsj
    obtain ⟨⟨h1, h2⟩, hgt⟩ := goodStream_cons.mp hg
    cases c with
    | none => exact absurd rfl h1
    | some d =>
      cases d with
      | nil => exact absurd rfl h2
      | cons b bs =>
        rw [sjoin_cons] at hsj
        simp only [Option.getD_some] at hsj
        cases hsp : splitAtNL (b :: bs) with
        | some pr =>
          obtain ⟨p, r1⟩ := pr
          obtain ⟨q1, hq1, hp, hchunk⟩ := splitAtNL_decomp hsp
          have he : q1 ++ NL :: (r1 ++ sjoin t) = q ++ NL :: r := by
            rw [← hsj, hchunk]
            simp [List.append_assoc]
          obtain ⟨hqq, hrr⟩ := nl_decomp_unique hq1 hq he
          refine ⟨r1, t, [((b :: bs).length : Int)], ?_, hgt, hrr, ?_⟩
          · simp only [readLoop, Bool.false_eq_true, if_false, hsp]
            have hline : finishLine (buf ++ p) = buf ++ q := by
              rw [hp, hqq, ← List.append_assoc, finishLine_snoc]
            rw [hline]
            by_cases hr1 : r1 = [] <;> simp [hr1]
          · by_cases hr1 : r1 = []
            · exact Or.inl hr1
            · refine Or.inr ⟨b :: bs, List.mem_cons_self _ _, ?_⟩
              have := congrArg List.length hchunk
              simp [List.length_append] at this ⊢
              omega
        | none =>
          have hnl1 : NL ∉ b :: bs := splitAtNL_none_not_mem hsp
          obtain ⟨q2, hq2eq, ht⟩ := prefix_of_first_nl hnl1 hq hsj
          have hq2 : NL ∉ q2 := fun hm => hq (by rw [hq2eq]; simp [hm])
          have hbb : NL ∉ buf ++ b :: bs := fun hm => by
            rcases List.mem_append.mp hm with h | h
            · exact hb h
            · exact hnl1 h
          obtain ⟨lf, s2, ds, hrl, hgs2, hlfs, hbound⟩ :=
            ih (buf ++ b :: bs) q2 r hgt hbb hq2 ht
          refine ⟨lf, s2, ((b :: bs).length : Int) :: ds, ?_, hgs2, hlfs, ?_⟩
          · simp only [readLoop, Bool.false_eq_true, if_false, hsp]
            rw [hrl]
            simp [hq2eq, List.append_assoc]
          · rcases hbound with h | ⟨d2, hd2, hlen⟩
            · exact Or.inl h
            · exact Or.inr ⟨d2, List.mem_cons_of_mem _ hd2, hlen⟩

theorem readLoop_error : ∀ (pre : RawStream) (buf : List Byte) (st : RState)
    (rest : RawStream), goodStream pre → st.eof_reached = false →
    NL ∉ sjoin pre →
    readLoop buf st (pre ++ none :: rest) =
      { line := none, state := st, rest := rest,
        diags := pre.map rawVal ++ [-1] } := by
  intro pre
  induction pre with
  | nil =>
    intro buf st rest _ heof _
    simp [readLoop, heof]
  | cons c t ih =>
    intro buf st rest hg heof hnl
    obtain ⟨⟨h1, h2⟩, hgt⟩ := goodStream_cons.mp hg
    cases c with
    | none => exact absurd rfl h1
    | some d =>
      cases d with
      | nil => exact absurd rfl h2
      | cons b bs =>
        rw [sjoin_cons] at hnl
        simp only [Option.getD_some] at hnl
        have hnl1 : NL ∉ b :: bs := fun hm => hnl (List.mem_append.mpr (Or.inl hm))
        have hnl2 : NL ∉ sjoin t := fun hm => hnl (List.mem_append.mpr (Or.inr hm))
        have hsp : splitAtNL (b :: bs) = none := splitAtNL_of_not_mem hnl1
        simp only [List.cons_append, readLoop, heof, Bool.false_eq_true, if_false,
          hsp, List.append_eq]
        rw [ih (buf ++ b :: bs) st rest hgt heof hnl2]
        simp [rawVal]

theorem readLoop_diags : ∀ (s : RawStream) (buf : List Byte) (st : RState),
    ∃ pre, s = pre ++ (readLoop buf st s).rest ∧
      ((readLoop buf st s).diags = pre.map rawVal ∨
       ((readLoop buf st s).diags = pre.map rawVal ++ [0] ∧
        (readLoop buf st s).rest = [])) := by
  intro s
  induction s with
  | nil =>
    intro buf st
    cases heq : st.eof_reached with
    | true => exact ⟨[], by simp [readLoop_eof _ _ _ heq], Or.inl (by simp [readLoop_eof _ _ _ heq])⟩
    | false => refine ⟨[], ?_, Or.inr ⟨?_, ?_⟩⟩ <;> simp [readLoop, heq]
  | cons c t ih =>
    intro buf st
    cases heq : st.eof_reached with
    | true => exact ⟨[], by simp [readLoop_eof _ _ _ heq], Or.inl (by simp [readLoop_eof _ _ _ heq])⟩
    | false =>
      have heof' : st.eof_reached = false := heq
      cases c with
      | none =>
        refine ⟨[none], ?_, Or.inl ?_⟩ <;>
          simp [readLoop, heof', rawVal]
      | some d =>
        cases d with
        | nil =>
          refine ⟨[some []], ?_, Or.inl ?_⟩ <;>
            simp [readLoop, heof', rawVal]
        | cons b bs =>
          cases hsp : splitAtNL (b :: bs) with
          | some pr =>
            obtain ⟨p, r1⟩ := pr
            refine ⟨[some (b :: bs)], ?_, Or.inl ?_⟩ <;>
              simp [readLoop, heof', hsp, rawVal]
          | none =>
            obtain ⟨pre, hpre, hd⟩ := ih (buf ++ b :: bs) st
            refine ⟨some (b :: bs) :: pre, ?_, ?_⟩
            · simp only [readLoop, heof', Bool.false_eq_true, if_false, hsp]
              simpa using hpre
            · rcases hd with h | ⟨h, hrest⟩
              · refine Or.inl ?_
                simp only [readLoop, heof', Bool.false_eq_true, if_false, hsp]
                simpa [rawVal] using h
              · refine Or.inr ⟨?_, ?_⟩ <;>
                  simp only [readLoop, heof', Bool.false_eq_true, if_false, hsp]
                · simpa [rawVal] using h
                · simpa using hrest

theorem readLoop_bound : ∀ (s : RawStream) (buf : List Byte) (st : RState),
    st.leftover.length ≤ READ_CHUNK_SIZE → s.all chunkOkB = true →
    (readLoop buf st s).state.leftover.length ≤ READ_CHUNK_SIZE ∧
    (readLoop buf st s).rest.all chunkOkB = true := by
  intro s
  induction s with
  | nil =>
    intro buf st h _
    cases heq : st.eof_reached with
    | true => simp [readLoop_eof _ _ _ heq, h]
    | false => simp [readLoop, heq, h]
  | cons c t ih =>
    intro buf st h hall
    cases heq : st.eof_reached with
    | true => simp [readLoop_eof _ _ _ heq, h, hall]
    | false =>
      have heof' : st.eof_reached = false := heq
      rw [List.all_cons, Bool.and_eq_true] at hall
      obtain ⟨hc, ht⟩ := hall
      cases c with
      | none => simp [readLoop, heof', h, ht]
      | some d =>
        cases d with
        | nil => simp [readLoop, heof', h, ht]
        | cons b bs =>
          cases hsp : splitAtNL (b :: bs) with
          | some pr =>
            obtain ⟨p, r1⟩ := pr
            simp only [readLoop, heof', Bool.false_eq_true, if_false, hsp]
            refine ⟨?_, by simpa using ht⟩
            by_cases hr1 : r1 = []
            · simpa [hr1] using h
            · simp only [if_neg hr1]
              obtain ⟨q1, _, _, hchunk⟩ := splitAtNL_decomp hsp
              have hlen := congrArg List.length hchunk
              simp only [chunkOkB, Option.getD_some, decide_eq_true_eq] at hc
              simp [List.length_append, List.length_cons] at hlen hc
              omega
          | none =>
            simp only [readLoop, heof', Bool.false_eq_true, if_false, hsp]
            exact ih (buf ++ b :: bs) st h ht

/-! ## Characterizations of `read_input` and of repeated calls -/

theorem read_input_at_eof (s : RawStream) :
    read_input { leftover := [], eof_reached := true } s =
      { line := none, state := { leftover := [], eof_reached := true }, rest := s,
        diags := [] } := by
  simp [read_input]

theorem read_input_residual_nl {lf0 : List Byte} (ef0 : Bool) (s : RawStream)
    {q r : List Byte} (hq : NL ∉ q) (hlf : lf0 = q ++ NL :: r) :
    read_input { leftover := lf0, eof_reached := ef0 } s =
      { line := some q, state := { leftover := r, eof_reached := ef0 }, rest := s,
        diags := [] } := by
  subst hlf
  have hcond : ¬(ef0 = true ∧ q ++ NL :: r = []) := by simp
  have hsp := splitAtNL_of_decomp r hq
  simp only [read_input, hcond, if_false, hsp, finishLine_snoc]

theorem read_input_no_residual_nl {lf0 : List Byte} (ef0 : Bool) (s : RawStream)
    (hlf : NL ∉ lf0) (hne : ¬(ef0 = true ∧ lf0 = [])) :
    read_input { leftover := lf0, eof_reached := ef0 } s =
      readLoop lf0 { leftover := [], eof_reached := ef0 } s := by
  have hsp := splitAtNL_of_not_mem hlf
  simp only [read_input, hne, if_false, hsp]

theorem drainFull_stopped {n : Nat} (hn : 1 ≤ n) (s : RawStream) :
    drainFull n { leftover := [], eof_reached := true } s =
      ([], { leftover := [], eof_reached := true }, s) := by
  cases n with
  | zero => omega
  | succ m => simp [drainFull, read_input_at_eof]

theorem drainFull_spec : ∀ (fuel : Nat) (st : RState) (s : RawStream),
    goodStream s → st.eof_reached = false →
    (st.leftover ++ sjoin s).length + 1 ≤ fuel →
    drainFull fuel st s =
      (linesOf (st.leftover ++ sjoin s),
       { leftover := [], eof_reached := true }, []) := by
  intro fuel
  induction fuel with
  | zero =>
    intro st s _ _ hf
    omega
  | succ n ih =>
    intro st s hg heof hf
    obtain ⟨lf0, ef0⟩ := st
    simp only at heof hf
    subst heof
    cases hsp : splitAtNL lf0 with
    | some pr =>
      obtain ⟨p, r1⟩ := pr
      obtain ⟨q1, hq1, hp, hlf⟩ := splitAtNL_decomp hsp
      have hri := read_input_residual_nl false s hq1 hlf
      simp only [drainFull, hri]
      have hfuel : ((r1 : List Byte) ++ sjoin s).length + 1 ≤ n := by
        rw [hlf] at hf
        simp [List.length_append] at hf ⊢
        omega
      rw [ih { leftover := r1, eof_reached := false } s hg rfl hfuel]
      have hlines : linesOf (lf0 ++ sjoin s) = q1 :: linesOf (r1 ++ sjoin s) := by
        rw [hlf, List.append_assoc, List.cons_append, linesOf_eq _ hq1]
      rw [hlines]
    | none =>
      have hnlf : NL ∉ lf0 := splitAtNL_none_not_mem hsp
      have hne : ¬(false = true ∧ lf0 = []) := by simp
      have hread := read_input_no_residual_nl false s hnlf hne
      cases hsj : splitAtNL (sjoin s) with
      | none =>
        have hnsj : NL ∉ sjoin s := splitAtNL_none_not_mem hsj
        have hrl := readLoop_no_nl lf0 { leftover := [], eof_reached := false }
          hg rfl hnlf hnsj
        by_cases hpend : lf0 ++ sjoin s = []
        · simp only [drainFull, hread, hrl, hpend]
          simp [linesOf_nil]
        · have hnone : NL ∉ lf0 ++ sjoin s := fun hm => by
            rcases List.mem_append.mp hm with h | h
            · exact hnlf h
            · exact hnsj h
          have hlen : 1 ≤ (lf0 ++ sjoin s).length :=
            List.length_pos.mpr hpend
          simp only [drainFull, hread, hrl, if_neg hpend]
          rw [drainFull_stopped (by omega) []]
          rw [linesOf_no_nl hnone hpend]
      | some pr =>
        obtain ⟨p, r⟩ := pr
        obtain ⟨q, hq, hp, hsjeq⟩ := splitAtNL_decomp hsj
        obtain ⟨lf, s2, ds, hrl, hgs2, hlfs, _⟩ :=
          readLoop_found_nl lf0 q r hg hnlf hq hsjeq
        simp only [drainFull, hread, hrl]
        have hfuel : ((lf : List Byte) ++ sjoin s2).length + 1 ≤ n := by
          rw [hlfs]
          rw [hsjeq] at hf
          simp [List.length_append] at hf ⊢
          omega
        rw [ih { leftover := lf, eof_reached := false } s2 hgs2 rfl hfuel]
        have hnq : NL ∉ lf0 ++ q := fun hm => by
          rcases List.mem_append.mp hm with h | h
          · exact hnlf h
          · exact hq h
        have hlines : linesOf (lf0 ++ sjoin s) = (lf0 ++ q) :: linesOf r := by
          rw [hsjeq, ← List.append_assoc, linesOf_eq _ hnq]
        rw [hlines, hlfs]

/-! ## Claim theorems -/

/-- C1: the claim says a one-argument invocation processes every logical
line from the named script file, with no prompts.  Evaluating `main` on
`batchInput` (stdin carries "aa\n", the batch file carries "bb\n") shows
the processed line is stdin's "aa", not the file's "bb": `main` opens the
batch file but passes `stdin` to `read_input` (mysh.c line 68), so the
file is never read.  The no-prompt part does hold. -/
theorem batch_mode_reads_stdin :
    (main 4 batchInput).processedLines = [[97, 97]] ∧
    linesOf (sjoin batchInput.batchStream) = [[98, 98]] ∧
    (main 4 batchInput).processedLines ≠ linesOf (sjoin batchInput.batchStream) ∧
    (main 4 batchInput).prompts = 0 := by
  decide

/-- C2, counterexample: the claim says a failing raw read is reported as
an Error value distinguishable from EndOfInput; on a stream whose first
raw read fails, `read_input` returns the same `none` (NULL) that an
immediately-exhausted stream produces — the two results are equal. -/
theorem read_error_equals_eoi :
    (read_input initState [none]).line = none ∧
    (read_input initState [some []]).line = none ∧
    (read_input initState [none]).line = (read_input initState [some []]).line := by
  decide

/-- C2, amended: for every call in which the underlying raw read fails
(mysh.c lines 196-199), `read_input` returns NULL (`none`) — the very
value EndOfInput is reported with — so the caller cannot distinguish a
read error from end of input by the result.  The hypotheses
characterize exactly the calls that reach a failing read: the residual
holds no newline (else the call returns without reading), end of file
was not yet flagged, and the raw reads before the failing one in this
call are successful newline-free data reads (a newline or a 0-byte read
among them would end the call first).  The failing call discards the
buffered bytes, clears the residual, leaves the eof flag unset (unlike
EndOfInput), and prints one diagnostic per read performed, -1 for the
failing one. -/
theorem read_error_returns_null (st : RState) (pre rest s2 : RawStream)
    (hres : NL ∉ st.leftover) (heof : st.eof_reached = false)
    (hpre : goodStream pre) (hprenl : NL ∉ sjoin pre) :
    read_input st (pre ++ none :: rest) =
      { line := none, state := { leftover := [], eof_reached := false },
        rest := rest, diags := pre.map rawVal ++ [-1] } ∧
    (read_input { leftover := [], eof_reached := true } s2).line = none ∧
    (read_input st (pre ++ none :: rest)).line =
      (read_input { leftover := [], eof_reached := true } s2).line := by
  obtain ⟨lf0, ef0⟩ := st
  simp only at hres heof
  subst heof
  have hcall : read_input { leftover := lf0, eof_reached := false }
      (pre ++ none :: rest) =
      { line := none, state := { leftover := [], eof_reached := false },
        rest := rest, diags := pre.map rawVal ++ [-1] } := by
    rw [read_input_no_residual_nl false (pre ++ none :: rest) hres (by simp),
      readLoop_error pre lf0 { leftover := [], eof_reached := false } rest
        hpre rfl hprenl]
  exact ⟨hcall, by rw [read_input_at_eof], by rw [hcall, read_input_at_eof]⟩

/-- C2, witness for the amended theorem at a concrete input: residual
"ab", one successful newline-free chunk "cd", then the failing read. -/
theorem read_error_returns_null_w :
    read_input { leftover := [97, 98], eof_reached := false }
        [some [99, 100], none, some [10]] =
      { line := none, state := { leftover := [], eof_reached := false },
        rest := [some [10]], diags := [2, -1] } ∧
    (read_input { leftover := [], eof_reached := true } []).line = none ∧
    (read_input { leftover := [97, 98], eof_reached := false }
        [some [99, 100], none, some [10]]).line =
      (read_input { leftover := [], eof_reached := true } []).line :=
  read_error_returns_null { leftover := [97, 98], eof_reached := false }
    [some [99, 100]] [some [10]] [] (by decide) rfl (by simp [goodStream])
    (by decide)

/-- C3, counterexample: on the input line "die 3" the claim says the
process exit code equals 3; `main` merely breaks out of the loop on a
first token of "die" and returns 0 (mysh.c lines 94-98 and 115). -/
theorem die_numeric_code_ignored :
    (main 3 dieInput).exitCode = 0 ∧ (main 3 dieInput).exitCode ≠ 3 := by
  decide

/-- C3, amended: the process exit code is 0 on every graceful
termination — `exit`, `die` (with any arguments: the numeric argument of
`die` is ignored) or end of input — and 1 (EXIT_FAILURE) exactly when
more than one argument is given or the batch file cannot be opened. -/
theorem exit_code_characterization (fuel : Nat) (inp : MainInput) :
    (main fuel inp).exitCode =
      if 2 < inp.argc ∨ (inp.argc = 2 ∧ inp.fopenOk = false) then 1 else 0 := by
  by_cases h1 : 2 < inp.argc
  · simp [main, h1]
  · by_cases h2 : inp.argc = 2 ∧ inp.fopenOk = false
    · simp [main, h1, h2]
    · simp [main, h1, h2]

/-- C4: on a stream whose bytes end in a nonempty segment after the last
newline, repeated `read_input` calls yield exactly the lines of the
newline-terminated body followed by that final segment once, ending in
the end-of-file state with no residual; any subsequent call returns
EndOfInput without consuming a raw read and without printing a
diagnostic. -/
theorem final_segment_returned_once (cs : List (List Byte))
    (body seg : List Byte) (fuel : Nat) (s2 : RawStream)
    (hne : ∀ c ∈ cs, c ≠ []) (hjoin : cs.flatten = body ++ seg)
    (hbody : body = [] ∨ ∃ b2, body = b2 ++ [NL])
    (hseg1 : NL ∉ seg) (hseg2 : seg ≠ [])
    (hfuel : cs.flatten.length + 1 ≤ fuel) :
    drainFull fuel initState (cs.map some) =
      (linesOf body ++ [seg], { leftover := [], eof_reached := true }, []) ∧
    read_input { leftover := [], eof_reached := true } s2 =
      { line := none, state := { leftover := [], eof_reached := true },
        rest := s2, diags := [] } := by
  constructor
  · rw [drainFull_spec fuel initState (cs.map some) (goodStream_map_some hne) rfl
      (by simpa [initState, sjoin_map_some] using hfuel)]
    have hpend : (initState.leftover : List Byte) ++ sjoin (cs.map some) =
        body ++ seg := by
      simp [initState, sjoin_map_some, hjoin]
    rw [hpend, linesOf_append_terminated seg hbody, linesOf_no_nl hseg1 hseg2]
  · exact read_input_at_eof s2

/-- C4, witness at a concrete input: the stream "a\nb" in one chunk. -/
theorem final_segment_returned_once_w :
    drainFull 4 initState [some [97, 10, 98]] =
      ([[97], [98]], { leftover := [], eof_reached := true }, []) ∧
    read_input { leftover := [], eof_reached := true } [some [99]] =
      { line := none, state := { leftover := [], eof_reached := true },
        rest := [some [99]], diags := [] } :=
  final_segment_returned_once [[97, 10, 98]] [97, 10] [98] 4 [some [99]]
    (by decide) (by decide) (Or.inr ⟨[97], rfl⟩) (by decide) (by decide)
    (by decide)

/-- C5: when the residual already contains a newline, `read_input`
returns the residual prefix before the first newline as the logical line
(newline stripped), performs no raw read (the raw stream is untouched
and no diagnostic is printed), and retains exactly the bytes after that
newline as the new residual. -/
theorem residual_newline_no_read (st : RState) (s : RawStream)
    (q r : List Byte) (hq : NL ∉ q) (hlf : st.leftover = q ++ NL :: r) :
    read_input st s =
      { line := some q, state := { st with leftover := r }, rest := s,
        diags := [] } := by
  obtain ⟨lf0, ef0⟩ := st
  simp only at hlf
  exact read_input_residual_nl ef0 s hq hlf

/-- C5, witness: residual "hi\ny" yields line "hi", residual "y", and
the (error-poisoned) stream is never touched. -/
theorem residual_newline_no_read_w :
    read_input { leftover := [104, 105, 10, 121], eof_reached := false } [none] =
      { line := some [104, 105],
        state := { leftover := [121], eof_reached := false }, rest := [none],
        diags := [] } :=
  residual_newline_no_read
    { leftover := [104, 105, 10, 121], eof_reached := false }
    [none] [104, 105] [121] (by decide) rfl

/-- C6: two chunkings of the same underlying byte stream produce the same
sequence of logical lines — the lines yielded by repeated `read_input`
calls depend only on the concatenation of the raw reads, not on where
the chunk boundaries fall. -/
theorem chunk_boundary_independence (cs ds : List (List Byte)) (f1 f2 : Nat)
    (hcs : ∀ c ∈ cs, c ≠ []) (hds : ∀ d ∈ ds, d ≠ [])
    (hjoin : cs.flatten = ds.flatten)
    (hf1 : cs.flatten.length + 1 ≤ f1) (hf2 : ds.flatten.length + 1 ≤ f2) :
    (drainFull f1 initState (cs.map some)).1 =
    (drainFull f2 initState (ds.map some)).1 := by
  rw [drainFull_spec f1 initState (cs.map some) (goodStream_map_some hcs) rfl
      (by simpa [initState, sjoin_map_some] using hf1),
    drainFull_spec f2 initState (ds.map some) (goodStream_map_some hds) rfl
      (by simpa [initState, sjoin_map_some] using hf2)]
  simp [initState, sjoin_map_some, hjoin]

/-- C6, witness: "a\nb" delivered in one chunk and byte-by-byte. -/
theorem chunk_boundary_independence_w :
    (drainFull 4 initState [some [97, 10, 98]]).1 =
    (drainFull 4 initState [some [97], some [10], some [98]]).1 :=
  chunk_boundary_independence [[97, 10, 98]] [[97], [10], [98]] 4 4
    (by decide) (by decide) (by decide) (by decide) (by decide)

/-- C7: a call bound to a stream different from the previous call's
resets the residual and the end-of-file flag before any byte of the new
stream is processed: the call behaves exactly like a call on a fresh
reader, and `last_file` is rebound to the new stream. -/
theorem stream_change_resets_state (source : Nat) (st : CState) (s : RawStream)
    (h : st.last_file ≠ some source) :
    read_input_c source st s =
      ((read_input initState s).line,
       { leftover := (read_input initState s).state.leftover,
         eof_reached := (read_input initState s).state.eof_reached,
         last_file := some source },
       (read_input initState s).rest, (read_input initState s).diags) := by
  simp [read_input_c, h, initState]

/-- C7, witness: stale residual and end-of-file flag from stream 3 are
discarded when stream 7 is read. -/
theorem stream_change_resets_state_w :
    read_input_c 7 { leftover := [97], eof_reached := true, last_file := some 3 }
        [some [98, 10]] =
      (some [98], { leftover := [], eof_reached := false, last_file := some 7 },
       [], [2]) :=
  stream_change_resets_state 7
    { leftover := [97], eof_reached := true, last_file := some 3 }
    [some [98, 10]] (by decide)

/-- C8: with more than one argument `main` writes the usage message to
the error stream and exits with a non-zero code without reading or
processing any input. -/
theorem usage_error_exits (fuel : Nat) (inp : MainInput) (h : 2 < inp.argc) :
    main fuel inp =
      { exitCode := 1, processedLines := [], readCalls := 0, prompts := 0,
        usageError := true } := by
  simp [main, h]

/-- C8, witness at a three-argv invocation. -/
theorem usage_error_exits_w :
    main 5 usageInput =
      { exitCode := 1, processedLines := [], readCalls := 0, prompts := 0,
        usageError := true } :=
  usage_error_exits 5 usageInput (by decide)

/-- C9: every raw read performed by `read_input` prints one
"Bytes read: n" diagnostic on standard output carrying that read's byte
count (-1 for a failing read): the diagnostics of any call are exactly
the per-read values of the consumed prefix of the stream, plus one final
"Bytes read: 0" for the read that hits end of file when the loop runs
the stream dry. -/
theorem every_read_logged (st : RState) (s : RawStream) :
    ∃ pre, s = pre ++ (read_input st s).rest ∧
      ((read_input st s).diags = pre.map rawVal ∨
       ((read_input st s).diags = pre.map rawVal ++ [0] ∧
        (read_input st s).rest = [])) := by
  obtain ⟨lf0, ef0⟩ := st
  by_cases hc : ef0 = true ∧ lf0 = []
  · obtain ⟨h1, h2⟩ := hc
    subst h1; subst h2
    exact ⟨[], by simp [read_input_at_eof], Or.inl (by simp [read_input_at_eof])⟩
  · cases hsp : splitAtNL lf0 with
    | some pr =>
      obtain ⟨p, r⟩ := pr
      obtain ⟨q, hq, hp, hlf⟩ := splitAtNL_decomp hsp
      rw [read_input_residual_nl ef0 s hq hlf]
      exact ⟨[], by simp, Or.inl (by simp)⟩
    | none =>
      rw [read_input_no_residual_nl ef0 s (splitAtNL_none_not_mem hsp) hc]
      exact readLoop_diags s lf0 { leftover := [], eof_reached := ef0 }

/-- C10: if the residual holds at most READ_CHUNK_SIZE (128) bytes and
every raw read delivers at most 128 bytes — which `read` into the
128-byte `chunk` array guarantees — then after any `read_input` call the
residual again holds at most 128 bytes, so the `memcpy`/`memmove` into
the fixed 128-byte `leftover` array stays in bounds; the unconsumed
stream keeps the same chunk bound, so the invariant carries across every
call. -/
theorem residual_stays_bounded (st : RState) (s : RawStream)
    (h : st.leftover.length ≤ READ_CHUNK_SIZE) (hs : s.all chunkOkB = true) :
    (read_input st s).state.leftover.length ≤ READ_CHUNK_SIZE ∧
    (read_input st s).rest.all chunkOkB = true := by
  obtain ⟨lf0, ef0⟩ := st
  simp only at h
  by_cases hc : ef0 = true ∧ lf0 = []
  · obtain ⟨h1, h2⟩ := hc
    subst h1; subst h2
    simp [read_input_at_eof, hs]
  · cases hsp : splitAtNL lf0 with
    | some pr =>
      obtain ⟨p, r⟩ := pr
      obtain ⟨q, hq, hp, hlf⟩ := splitAtNL_decomp hsp
      rw [read_input_residual_nl ef0 s hq hlf]
      have hlen := congrArg List.length hlf
      simp [List.length_append] at hlen
      refine ⟨?_, by simpa using hs⟩
      show (r : List Byte).length ≤ READ_CHUNK_SIZE
      omega
    | none =>
      rw [read_input_no_residual_nl ef0 s (splitAtNL_none_not_mem hsp) hc]
      exact readLoop_bound s lf0 { leftover := [], eof_reached := ef0 }
        (by simp) hs

/-- C10, witness: residual "hi", then a chunk "\nx". -/
theorem residual_stays_bounded_w :
    (read_input { leftover := [104, 105], eof_reached := false }
        [some [10, 120]]).state.leftover.length ≤ READ_CHUNK_SIZE ∧
    (read_input { leftover := [104, 105], eof_reached := false }
        [some [10, 120]]).rest.all chunkOkB = true :=
  residual_stays_bounded { leftover := [104, 105], eof_reached := false }
    [some [10, 120]] (by decide) (by decide)

end Mysh
